import Mathlib

/-!
Verification development for the word-token extraction and frequency-ranking
pipeline of `src/app.py` (bilibili-sentiment-analysis), together with its
rendering-fallback chain.  Python strings are embedded as `List Char`;
fallible Python code is embedded as `Except PyErr`.
-/

namespace BiliApp

/-- Python whitespace predicate, covering the whitespace characters relevant
to this code base (space, tab, newline, carriage return, vertical tab,
form feed) as used by `str.strip`, `str.split()` and `str.isspace`. -/
def pyIsSpace (c : Char) : Bool :=
  c = ' ' || c = '\t' || c = '\n' || c = '\r' || c = '\x0b' || c = '\x0c'

/-- Left half of Python `str.strip()`: drop leading whitespace. -/
def lstrip (l : List Char) : List Char := l.dropWhile pyIsSpace

/-- Right half of Python `str.strip()`: drop trailing whitespace. -/
def rstrip : List Char → List Char
  | [] => []
  | c :: cs =>
    let r := rstrip cs
    if r.isEmpty && pyIsSpace c then [] else c :: r

/-- Python `str.strip()`. -/
def strip (l : List Char) : List Char := rstrip (lstrip l)

/-- Split a character list at every character satisfying `p`, keeping empty
pieces, in the style of Python `str.split(sep)` (which never drops pieces). -/
def splitOnPred (p : Char → Bool) : List Char → List (List Char)
  | [] => [[]]
  | c :: cs =>
    if p c then [] :: splitOnPred p cs
    else
      match splitOnPred p cs with
      | [] => [[c]]
      | w :: rest => (c :: w) :: rest

/-- Python `str.split(',')`. -/
def pySplitComma (l : List Char) : List (List Char) := splitOnPred (fun c => c == ',') l

/-- Python `str.split()` with no argument: split on whitespace runs and drop
the empty pieces. -/
def pySplitWs (l : List Char) : List (List Char) :=
  (splitOnPred pyIsSpace l).filter (fun w => !w.isEmpty)

/-- Python `str.replace(c, "")`: remove every occurrence of the character. -/
def removeChar (c : Char) (l : List Char) : List Char := l.filter (fun x => x != c)

/-- Python `str.isspace()`: nonempty and every character is whitespace. -/
def pyIsspaceStr (l : List Char) : Bool := !l.isEmpty && l.all pyIsSpace

/-- The literal noise markers of app.py line 237:
`[' ', '', '\\n', '\\t']` (the last two are two-character backslash
escapes, not real newline/tab characters). -/
def noiseTokens : List (List Char) := [[' '], [], ['\\', 'n'], ['\\', 't']]

/-- The filter condition of app.py lines 235-237, applied to the stripped
candidate token. -/
def keepWord (wc : List Char) : Bool :=
  decide (0 < wc.length) && !(pyIsspaceStr wc) && !(noiseTokens.contains wc)

/-- The filtering loop of app.py lines 232-238: strip each candidate and keep
it when the filter condition holds, preserving order. -/
def filterWords (ws : List (List Char)) : List (List Char) :=
  ws.filterMap (fun w => let wc := strip w; if keepWord wc then some wc else none)

/-- Body of `get_words_from_segmented` (app.py lines 221-240) on an actual
string: strip, sniff the bracketed form, remove quote characters and split on
commas (bracketed form) or split on whitespace (plain form), then filter.
Every Python operation in this body is total, so the body is a plain
function. -/
def get_words_core (s : List Char) : List (List Char) :=
  let clean := strip s
  let words :=
    if clean.head? == some '[' && clean.getLast? == some ']' then
      let content := removeChar '"' (removeChar '\'' ((clean.drop 1).dropLast))
      (pySplitComma content).map strip
    else
      pySplitWs clean
  filterWords words

/-- Python exception markers relevant to this development. -/
inductive PyErr
  | valueError
deriving DecidableEq

/-- Embedded Python values that can reach `get_words_from_segmented` from a
dataframe column: `None`, a float `NaN`, a number, a string, or a list.  A
list is recorded by the `pd.isna` flags of its elements, which is the only
attribute of its contents that the embedded code inspects. -/
inductive PyVal where
  | pyNone
  | nanVal
  | intVal (n : Int)
  | pyStr (s : List Char)
  | pyList (isnaFlags : List Bool)
deriving DecidableEq

/-- Truthiness of `pd.isna(v)`.  On scalars `pd.isna` returns a `bool`
(`True` exactly for `None`/`NaN`).  On a list it returns a numpy boolean
array whose truth value is its single element when the array has exactly one
element and raises `ValueError` (ambiguous truth value) otherwise. -/
def pdIsnaTruthy : PyVal → Except PyErr Bool
  | .pyNone => .ok true
  | .nanVal => .ok true
  | .intVal _ => .ok false
  | .pyStr _ => .ok false
  | .pyList [b] => .ok b
  | .pyList _ => .error .valueError

/-- Python `isinstance(v, str)`. -/
def isStringVal : PyVal → Bool
  | .pyStr _ => true
  | _ => false

/-- `get_words_from_segmented` of app.py lines 216-244.  The guard
`if pd.isna(segmented_str) or not isinstance(segmented_str, str)` evaluates
the truthiness of `pd.isna` first (outside the `try` block, so an exception
there propagates to the caller); otherwise the total body runs. -/
def get_words_from_segmented (v : PyVal) : Except PyErr (List (List Char)) :=
  match pdIsnaTruthy v with
  | .error e => .error e
  | .ok b =>
    if b || !(isStringVal v) then .ok []
    else
      match v with
      | .pyStr s => .ok (get_words_core s)
      | _ => .ok []

section Counter

variable {α : Type} [DecidableEq α]

/-- One `counter[w] += 1` step on the ordered item list of a Python
`Counter`: increment the entry of `w` in place when present, otherwise
append a fresh entry at the end (Python dicts preserve insertion order). -/
def bump (w : α) : List (α × Nat) → List (α × Nat)
  | [] => [(w, 1)]
  | p :: rest => if p.1 = w then (p.1, p.2 + 1) :: rest else p :: bump w rest

/-- Item list (in key insertion order, i.e. first-occurrence order) of
`Counter(ws)`. -/
def counterItems (ws : List α) : List (α × Nat) := ws.foldl (fun acc w => bump w acc) []

/-- Count stored for key `w` in an item list, `0` when absent. -/
def keyVal (w : α) : List (α × Nat) → Nat
  | [] => 0
  | p :: rest => if p.1 = w then p.2 else keyVal w rest

/-- Stable descending insertion by count: the new pair goes after every
existing pair of greater or equal count.  Folding it over a list reproduces
Python's stable `sorted(items, key=count, reverse=True)`. -/
def insertDesc (p : α × Nat) : List (α × Nat) → List (α × Nat)
  | [] => [p]
  | q :: rest => if q.2 < p.2 then p :: q :: rest else q :: insertDesc p rest

/-- Stable sort of the items, descending by count (`sorted(...,
key=itemgetter(1), reverse=True)`; CPython's sort is stable, and with
`reverse=True` equal keys still keep their original relative order). -/
def sortDesc (l : List (α × Nat)) : List (α × Nat) := l.foldl (fun acc p => insertDesc p acc) []

/-- `Counter(ws).most_common(n)`: `heapq.nlargest` over the items, documented
as equivalent to stable descending sort followed by `[:n]`. -/
def mostCommon (ws : List α) (n : Nat) : List (α × Nat) := (sortDesc (counterItems ws)).take n

/-- Index of the first occurrence of `w` (length of the list when absent),
used to express first-seen tie-breaking. -/
def firstIdx (w : α) : List α → Nat
  | [] => 0
  | x :: xs => if x = w then 0 else firstIdx w xs + 1

/-- Number of occurrences of `w` in a list. -/
def occurrences (w : α) : List α → Nat
  | [] => 0
  | x :: xs => (if x = w then 1 else 0) + occurrences w xs

end Counter

/-- `max` of a nonempty Python list (`None` marks the `ValueError` that
`max([])` raises). -/
def pyMaxNat : List Nat → Option Nat
  | [] => none
  | c :: cs => some (cs.foldl Nat.max c)

/-- `min` of a nonempty Python list. -/
def pyMinNat : List Nat → Option Nat
  | [] => none
  | c :: cs => some (cs.foldl Nat.min c)

/-- Figure produced by the manual grid renderer: the rendered words, their
font sizes, and their grid positions (rational arithmetic stands in for
Python floats; everything the claims touch is exact). -/
structure ManualFig where
  words : List (List Char)
  sizes : List ℚ
  positions : List (ℚ × ℚ)
deriving DecidableEq

/-- Grid positions of app.py lines 163-173: word `i` goes to column `i % 8`
and row `i / 8`; `x = col*(width/8) + width/16` and
`y = height - (row*(height/(n/8+1)) + height/((n/8+1)*2))` with `n` the
number of rendered words (`/` on `Nat` is Python `//`). -/
def gridPositions (width height : ℚ) (n : Nat) : List (ℚ × ℚ) :=
  (List.range n).map fun i =>
    (((i % 8 : Nat) : ℚ) * (width / 8) + width / 16,
     height - (((i / 8 : Nat) : ℚ) * (height / ((n / 8 + 1 : Nat) : ℚ))
               + height / (((n / 8 + 1) * 2 : Nat) : ℚ)))

/-- The word/count slicing and size computation of
`create_wordcloud_image_manual` (app.py lines 150-160), which runs before
the drawing loop: `words`/`counts` are the first `max_words` items of the
frequency table in its own (insertion) order; `max(counts)` on an empty
list raises `ValueError` (embedded as `none`, and caught by the function's
`try`); equal extremes give `sizes = [50] * len(words)` with no division,
otherwise `size = 20 + 80*(count-min)/(max-min)`. -/
def manualSizes (word_freq : List ((List Char) × Nat)) (max_words : Nat) :
    Option (List ℚ) :=
  let words := (word_freq.map Prod.fst).take max_words
  let counts := (word_freq.map Prod.snd).take max_words
  match pyMaxNat counts, pyMinNat counts with
  | some maxC, some minC =>
    some (if maxC = minC then List.replicate words.length 50
          else counts.map fun c : Nat =>
            (20 : ℚ) + 80 * (((c : ℚ) - (minC : ℚ)) / ((maxC : ℚ) - (minC : ℚ))))
  | _, _ => none

/-- `create_wordcloud_image_manual` of app.py lines 136-190.  Everything in
the function body sits inside one `try` whose `except` returns `None`
(lines 188-190).  Besides `max([])`, the body makes fallible
library/widget calls: `plt.cm.get_cmap(colormap)` at line 147 (removed in
newer matplotlib), and the drawing loop of lines 176-180, which calls
`get_best_chinese_font()` — and through it
`st.sidebar.file_uploader(..., key="font_uploader")` — once per word, so it
raises a duplicate-element-key error whenever that fixed-key widget already
exists; in `main`'s render flow it always does (line 429 created it before
either renderer runs).  Whether those environment-dependent calls complete
is an external-resource fact, passed in as `drawOk`; when any of them
raises, the `except` returns `None` and nothing is placed.  On success the
figure holds the sliced words, their computed sizes, and the grid
positions. -/
def create_wordcloud_image_manual (word_freq : List ((List Char) × Nat))
    (width height : ℚ) (max_words : Nat) (drawOk : Bool) : Option ManualFig :=
  let words := (word_freq.map Prod.fst).take max_words
  match manualSizes word_freq max_words with
  | some sizes =>
    if drawOk then some ⟨words, sizes, gridPositions width height words.length⟩
    else none
  | none => none

/-- The three rendering strategies of the word-cloud block of `main`. -/
inductive Strategy
  | ultimate
  | manual
  | bar
deriving DecidableEq

/-- The value of the `generate_mode` radio button. -/
inductive GenMode
  | autoCloud
  | manualLayout
deriving DecidableEq

/-- Observable outcome of one run of the word-cloud block of `main`:
which strategies were invoked in order, the word-cloud artifact shown by
`st.pyplot` (if any), whether the ranked-bar fallback was shown, and the
top-20 table shown at lines 479-483. -/
structure RenderTrace where
  invoked : List Strategy
  artifactShown : Option Nat
  barShown : Bool
  topTable : Option (List ((List Char) × Nat))
deriving DecidableEq

/-- The word-cloud generation block of `main` (app.py lines 406-486).
`allWords` is the concatenation of the extracted tokens; the results of the
two fallible renderers are inputs (they depend on fonts and libraries, which
are external resources), with `none` for a renderer that returned `None`.
With no tokens the block warns and renders nothing (line 486).  Otherwise,
in automatic mode `create_wordcloud_ultimate` runs first and on failure the
code reassigns `generate_mode = "手动布局"`; in manual-layout mode (whether
chosen by the user or reached by that reassignment)
`create_wordcloud_image_manual` runs, and on its failure
`display_word_frequency` shows the ranked-bar chart.  The top-20 table of
lines 479-483 is shown on every path of this branch. -/
def wordcloudRenderBlock (allWords : List (List Char)) (mode : GenMode)
    (ultimateResult manualResult : Option Nat) : RenderTrace :=
  if allWords.isEmpty then ⟨[], none, false, none⟩
  else
    let step1 : List Strategy × Option Nat × GenMode :=
      match mode with
      | .autoCloud =>
        match ultimateResult with
        | some a => ([Strategy.ultimate], some a, GenMode.autoCloud)
        | none => ([Strategy.ultimate], none, GenMode.manualLayout)
      | .manualLayout => ([], none, GenMode.manualLayout)
    match step1 with
    | (inv1, art1, mode1) =>
      match mode1 with
      | .manualLayout =>
        match manualResult with
        | some a => ⟨inv1 ++ [Strategy.manual], some a, false, some (mostCommon allWords 20)⟩
        | none => ⟨inv1 ++ [Strategy.manual, Strategy.bar], art1, true,
                   some (mostCommon allWords 20)⟩
      | .autoCloud => ⟨inv1, art1, false, some (mostCommon allWords 20)⟩

/-- Decidable equality for embedded fallible results. -/
instance {ε α : Type} [DecidableEq ε] [DecidableEq α] : DecidableEq (Except ε α) := fun x y =>
  match x, y with
  | .ok a, .ok b =>
    if h : a = b then .isTrue (by rw [h]) else .isFalse (by simp [h])
  | .error a, .error b =>
    if h : a = b then .isTrue (by rw [h]) else .isFalse (by simp [h])
  | .ok _, .error _ => .isFalse (by simp)
  | .error _, .ok _ => .isFalse (by simp)

/-- The ordering discipline asserted by the spec for one render action, read
off the fixed chain `[ultimate, manual, bar]`: a later strategy is invoked
only when every earlier strategy was invoked and returned failure. -/
@[reducible] def chainDiscipline (allWords : List (List Char)) (mode : GenMode)
    (uRes mRes : Option Nat) : Prop :=
  (Strategy.manual ∈ (wordcloudRenderBlock allWords mode uRes mRes).invoked →
      Strategy.ultimate ∈ (wordcloudRenderBlock allWords mode uRes mRes).invoked ∧
      uRes = none) ∧
  (Strategy.bar ∈ (wordcloudRenderBlock allWords mode uRes mRes).invoked →
      uRes = none ∧ mRes = none)

/-- Join a list of tokens with a separator, as in the serialized form
`"[a, b, c]"`. -/
def joinSep (sep : List Char) : List (List Char) → List Char
  | [] => []
  | [t] => t
  | t :: ts => t ++ sep ++ joinSep sep ts

/-- A well-formed bracketed token string `"[a, b, c]"`: tokens joined by
`", "` between `'['` and `']'`. -/
def bracketize (ts : List (List Char)) : List Char :=
  ('[' :: joinSep [',', ' '] ts) ++ [']']

/-- Whether an embedded Python value is a list. -/
def isListVal : PyVal → Bool
  | .pyList _ => true
  | _ => false

/-! Lemmas about the embedded Python string primitives. -/

theorem lstrip_cons_of_space {c : Char} (l : List Char) (h : pyIsSpace c = true) :
    lstrip (c :: l) = lstrip l := by
  simp [lstrip, List.dropWhile, h]

theorem lstrip_cons_of_not_space {c : Char} (l : List Char) (h : pyIsSpace c = false) :
    lstrip (c :: l) = c :: l := by
  simp [lstrip, List.dropWhile, h]

theorem lstrip_head_not_space :
    ∀ (l : List Char) {c : Char} {m : List Char}, lstrip l = c :: m → pyIsSpace c = false := by
  intro l
  induction l with
  | nil => intro c m h; simp [lstrip] at h
  | cons x xs ih =>
    intro c m h
    by_cases hx : pyIsSpace x = true
    · rw [lstrip_cons_of_space xs hx] at h
      exact ih h
    · have hx' : pyIsSpace x = false := by
        cases hb : pyIsSpace x
        · rfl
        · exact absurd hb hx
      rw [lstrip_cons_of_not_space xs hx'] at h
      cases h
      exact hx'

theorem lstrip_idem (l : List Char) : lstrip (lstrip l) = lstrip l := by
  cases h : lstrip l with
  | nil => simp [lstrip, h, List.dropWhile]
  | cons c m =>
    have hc := lstrip_head_not_space l h
    rw [← h]
    rw [h]
    exact lstrip_cons_of_not_space m hc

theorem rstrip_cases (c : Char) (cs : List Char) :
    rstrip (c :: cs) = [] ∨ rstrip (c :: cs) = c :: rstrip cs := by
  by_cases h : ((rstrip cs).isEmpty && pyIsSpace c) = true
  · left; simp [rstrip, h]
  · right; simp only [rstrip]; rw [if_neg h]

theorem rstrip_idem : ∀ l : List Char, rstrip (rstrip l) = rstrip l := by
  intro l
  induction l with
  | nil => rfl
  | cons c cs ih =>
    rcases rstrip_cases c cs with h | h
    · rw [h]; rfl
    · rw [h]
      rcases rstrip_cases c (rstrip cs) with h2 | h2

      · -- rstrip (c :: rstrip cs) = [] forces rstrip (rstrip cs) empty and c space,
        -- but then rstrip (c :: cs) would be [] as well, contradicting h
        by_cases hc : ((rstrip (rstrip cs)).isEmpty && pyIsSpace c) = true
        · rw [ih] at hc
          have : rstrip (c :: cs) = [] := by simp [rstrip, hc]
          rw [h] at this
          rw [h2]
          exact this.symm
        · simp only [rstrip] at h2
          rw [if_neg hc] at h2
          cases h2
      · rw [h2, ih]

theorem rstrip_eq_self (l : List Char)
    (h : ∀ c, l.getLast? = some c → pyIsSpace c = false) : rstrip l = l := by
  induction l with
  | nil => rfl
  | cons c cs ih =>
    cases cs with
    | nil =>
      have hc := h c (by rfl)
      simp [rstrip, hc]
    | cons d ds =>
      have hcs : rstrip (d :: ds) = d :: ds := by
        apply ih
        intro x hx
        apply h
        rw [List.getLast?_cons_cons]
        exact hx
      have hdef : rstrip (c :: d :: ds) =
          if ((rstrip (d :: ds)).isEmpty && pyIsSpace c) = true then []
          else c :: rstrip (d :: ds) := rfl
      rw [hdef, hcs]
      simp

theorem strip_eq_self (l : List Char)
    (h1 : ∀ c, l.head? = some c → pyIsSpace c = false)
    (h2 : ∀ c, l.getLast? = some c → pyIsSpace c = false) : strip l = l := by
  have hl : lstrip l = l := by
    cases l with
    | nil => rfl
    | cons c cs => exact lstrip_cons_of_not_space cs (h1 c rfl)
  rw [strip, hl, rstrip_eq_self l h2]

theorem strip_cons_space {c : Char} (l : List Char) (h : pyIsSpace c = true) :
    strip (c :: l) = strip l := by
  rw [strip, strip, lstrip_cons_of_space l h]

theorem rstrip_head_eq : ∀ l : List Char, rstrip l = [] ∨ (rstrip l).head? = l.head? := by
  intro l
  cases l with
  | nil => left; rfl
  | cons c cs =>
    rcases rstrip_cases c cs with h | h
    · left; exact h
    · right; rw [h]; rfl

theorem strip_idem (l : List Char) : strip (strip l) = strip l := by
  rw [strip, strip]
  have hls : lstrip (rstrip (lstrip l)) = rstrip (lstrip l) := by
    rcases rstrip_head_eq (lstrip l) with h | h
    · rw [h]; rfl
    · cases hv : rstrip (lstrip l) with
      | nil => rfl
      | cons c m =>
        have hc : pyIsSpace c = false := by
          rw [hv] at h
          cases hl : lstrip l with
          | nil => rw [hl] at hv; cases hv
          | cons d ds =>
            rw [hl] at h
            simp only [List.head?_cons, Option.some.injEq] at h
            rw [h]
            exact lstrip_head_not_space l hl
        exact lstrip_cons_of_not_space m hc
  rw [hls, rstrip_idem]

theorem lstrip_all_space (l : List Char) (h : ∀ c ∈ l, pyIsSpace c = true) :
    lstrip l = [] := by
  induction l with
  | nil => rfl
  | cons c cs ih =>
    rw [lstrip_cons_of_space cs (h c (by simp))]
    exact ih (fun x hx => h x (by simp [hx]))

theorem strip_all_space (l : List Char) (h : ∀ c ∈ l, pyIsSpace c = true) :
    strip l = [] := by
  rw [strip, lstrip_all_space l h]; rfl

theorem strip_not_isspace (l : List Char) (h : strip l ≠ []) :
    pyIsspaceStr (strip l) = false := by
  cases hb : pyIsspaceStr (strip l)
  · rfl
  · exfalso
    apply h
    have hall : ∀ c ∈ strip l, pyIsSpace c = true := by
      intro c hc
      have := (Bool.and_eq_true _ _).mp hb
      exact List.all_eq_true.mp this.2 c hc
    have := strip_all_space (strip l) hall
    rw [strip_idem] at this
    exact this

theorem mem_lstrip {c : Char} {l : List Char} (h : c ∈ lstrip l) : c ∈ l := by
  induction l with
  | nil => exact h
  | cons x xs ih =>
    by_cases hx : pyIsSpace x = true
    · rw [lstrip_cons_of_space xs hx] at h
      exact List.mem_cons_of_mem x (ih h)
    · have hx' : pyIsSpace x = false := by
        cases hb : pyIsSpace x
        · rfl
        · exact absurd hb hx
      rw [lstrip_cons_of_not_space xs hx'] at h
      exact h

theorem mem_rstrip {c : Char} : ∀ {l : List Char}, c ∈ rstrip l → c ∈ l := by
  intro l
  induction l with
  | nil => intro h; exact h
  | cons x xs ih =>
    intro h
    rcases rstrip_cases x xs with h2 | h2
    · rw [h2] at h; cases h
    · rw [h2] at h
      rcases List.mem_cons.mp h with h3 | h3
      · exact h3 ▸ List.mem_cons_self x xs
      · exact List.mem_cons_of_mem x (ih h3)

theorem mem_strip {c : Char} {l : List Char} (h : c ∈ strip l) : c ∈ l :=
  mem_lstrip (mem_rstrip h)

/-! Lemmas about splitting, joining and character removal. -/

theorem splitOnPred_ne_nil (p : Char → Bool) : ∀ l : List Char, splitOnPred p l ≠ [] := by
  intro l
  cases l with
  | nil => simp [splitOnPred]
  | cons c cs =>
    by_cases h : p c = true
    · simp [splitOnPred, h]
    · simp only [splitOnPred, if_neg h]
      cases splitOnPred p cs with
      | nil => simp
      | cons w rest => simp

theorem splitOnPred_cons_sep (p : Char → Bool) {c : Char} (l : List Char) (h : p c = true) :
    splitOnPred p (c :: l) = [] :: splitOnPred p l := by
  simp [splitOnPred, h]

theorem splitOnPred_cons_not (p : Char → Bool) {c : Char} (l : List Char) (h : p c = false) :
    splitOnPred p (c :: l) =
      ((splitOnPred p l).headI.cons c) :: (splitOnPred p l).tail := by
  simp only [splitOnPred, h, Bool.false_eq_true, if_false]
  cases hs : splitOnPred p l with
  | nil => exact absurd hs (splitOnPred_ne_nil p l)
  | cons w rest => rfl

theorem splitOnPred_append (p : Char → Bool) :
    ∀ (t l : List Char), (∀ c ∈ t, p c = false) →
      splitOnPred p (t ++ l) =
        (t ++ (splitOnPred p l).headI) :: (splitOnPred p l).tail := by
  intro t
  induction t with
  | nil =>
    intro l _
    cases hs : splitOnPred p l with
    | nil => exact absurd hs (splitOnPred_ne_nil p l)
    | cons w rest => simp [hs]
  | cons c t' ih =>
    intro l h
    have hc : p c = false := h c (by simp)
    have hrest : ∀ x ∈ t', p x = false := fun x hx => h x (by simp [hx])
    rw [List.cons_append, splitOnPred_cons_not p (t' ++ l) hc, ih l hrest]
    simp [List.cons]

theorem mem_joinSep (sep : List Char) :
    ∀ (ts : List (List Char)) {c : Char}, c ∈ joinSep sep ts →
      c ∈ sep ∨ ∃ t ∈ ts, c ∈ t := by
  intro ts
  induction ts with
  | nil => intro c h; cases h
  | cons t ts' ih =>
    intro c h
    cases ts' with
    | nil =>
      right
      exact ⟨t, by simp, h⟩
    | cons u us =>
      simp only [joinSep, List.append_assoc, List.mem_append] at h
      rcases h with h | h | h
      · right; exact ⟨t, by simp, h⟩
      · left; exact h
      · rcases ih h with h2 | h2
        · left; exact h2
        · right
          rcases h2 with ⟨v, hv, hc⟩
          exact ⟨v, by simp [hv], hc⟩

theorem pySplitComma_joinSep :
    ∀ ts : List (List Char), ts ≠ [] → (∀ t ∈ ts, ',' ∉ t) →
      pySplitComma (joinSep [',', ' '] ts) =
        ts.headI :: ts.tail.map (fun t => ' ' :: t) := by
  intro ts
  induction ts with
  | nil => intro h; exact absurd rfl h
  | cons t ts' ih =>
    intro _ hcomma
    have ht : ∀ c ∈ t, (c == ',') = false := by
      intro c hc
      have : c ≠ ',' := fun he => hcomma t (by simp) (he ▸ hc)
      simp [this]
    cases ts' with
    | nil =>
      show splitOnPred (fun c => c == ',') (joinSep [',', ' '] [t]) = [t]
      have : joinSep [',', ' '] [t] = t ++ [] := by simp [joinSep]
      rw [this, splitOnPred_append _ t [] ht]
      simp [splitOnPred]
    | cons u us =>
      have hrest : ∀ x ∈ u :: us, ',' ∉ x := fun x hx => hcomma x (by simp [hx])
      have hne : (u :: us) ≠ [] := by simp
      have ihr := ih hne hrest
      show splitOnPred (fun c => c == ',') (joinSep [',', ' '] (t :: u :: us)) = _
      have hj : joinSep [',', ' '] (t :: u :: us) =
          t ++ (',' :: ' ' :: joinSep [',', ' '] (u :: us)) := by
        simp [joinSep]
      rw [hj, splitOnPred_append _ t _ ht]
      rw [splitOnPred_cons_sep (fun c => c == ',') _ (by rfl)]
      have hns : (fun c => c == ',') ' ' = false := by rfl
      rw [splitOnPred_cons_not (fun c => c == ',') (joinSep [',', ' '] (u :: us)) hns]
      unfold pySplitComma at ihr
      rw [ihr]
      simp

theorem removeChar_eq_self {c : Char} {l : List Char} (h : c ∉ l) : removeChar c l = l := by
  induction l with
  | nil => rfl
  | cons x xs ih =>
    have hx : (x != c) = true := by
      have hne : x ≠ c := fun he => h (he ▸ List.mem_cons_self x xs)
      simp [bne_iff_ne, hne]
    have hxs : c ∉ xs := fun hm => h (List.mem_cons_of_mem x hm)
    simp only [removeChar, List.filter_cons, hx, if_true]
    exact congrArg (x :: ·) (ih hxs)

theorem mem_removeChar {x c : Char} {l : List Char} (h : x ∈ removeChar c l) : x ∈ l :=
  List.mem_of_mem_filter h

theorem not_mem_removeChar (c : Char) (l : List Char) : c ∉ removeChar c l := by
  intro h
  have := List.of_mem_filter h
  simp at this

/-! Lemmas about the token filter. -/

theorem mem_filterWords {w : List Char} {ws : List (List Char)} (h : w ∈ filterWords ws) :
    ∃ v ∈ ws, w = strip v ∧ keepWord w = true := by
  unfold filterWords at h
  rcases List.mem_filterMap.mp h with ⟨v, hv, hfv⟩
  by_cases hk : keepWord (strip v) = true
  · rw [if_pos hk] at hfv
    cases hfv
    exact ⟨v, hv, rfl, hk⟩
  · rw [if_neg hk] at hfv
    cases hfv

theorem keepWord_of_strip (t : List Char) (h1 : strip t ≠ [])
    (h2 : strip t ≠ ['\\', 'n']) (h3 : strip t ≠ ['\\', 't']) :
    keepWord (strip t) = true := by
  have hsp : pyIsspaceStr (strip t) = false := strip_not_isspace t h1
  have hlen : decide (0 < (strip t).length) = true := by
    cases hs : strip t with
    | nil => exact absurd hs h1
    | cons c m => simp
  have hcontains : noiseTokens.contains (strip t) = false := by
    cases hb : noiseTokens.contains (strip t)
    · rfl
    · exfalso
      have hmem : strip t ∈ noiseTokens := List.elem_iff.mp hb
      simp only [noiseTokens, List.mem_cons, List.not_mem_nil, or_false] at hmem
      rcases hmem with he | he | he | he
      · rw [he] at hsp
        exact absurd hsp (by simp [pyIsspaceStr, pyIsSpace])
      · exact h1 (by simp [he])
      · exact h2 he
      · exact h3 he
  rw [keepWord, hlen, hsp, hcontains]
  rfl

theorem filterWords_eq_self (ws : List (List Char))
    (h : ∀ w ∈ ws, strip w = w ∧ keepWord w = true) : filterWords ws = ws := by
  induction ws with
  | nil => rfl
  | cons w ws' ih =>
    have hw := h w (by simp)
    have hrest : ∀ v ∈ ws', strip v = v ∧ keepWord v = true :=
      fun v hv => h v (by simp [hv])
    unfold filterWords
    rw [List.filterMap_cons]
    have hf : (if keepWord (strip w) = true then some (strip w) else none) = some w := by
      rw [hw.1, if_pos hw.2]
    simp only [hf]
    unfold filterWords at ih
    rw [ih hrest]

/-! The extractor on well-formed bracketed token strings. -/

theorem bracketize_head (ts : List (List Char)) :
    (bracketize ts).head? = some '[' := by
  rw [bracketize, List.cons_append]
  rfl

theorem bracketize_getLast (ts : List (List Char)) :
    (bracketize ts).getLast? = some ']' := by
  rw [bracketize]
  exact List.getLast?_concat _

theorem strip_bracketize (ts : List (List Char)) : strip (bracketize ts) = bracketize ts := by
  apply strip_eq_self
  · intro c hc
    rw [bracketize_head ts] at hc
    cases hc
    rfl
  · intro c hc
    rw [bracketize_getLast ts] at hc
    cases hc
    rfl

theorem get_words_core_bracketed (ts : List (List Char)) (hne : ts ≠ [])
    (hchars : ∀ t ∈ ts, ',' ∉ t ∧ '\'' ∉ t ∧ '"' ∉ t)
    (hkeep : ∀ t ∈ ts, strip t ≠ [] ∧ strip t ≠ ['\\', 'n'] ∧ strip t ≠ ['\\', 't']) :
    get_words_core (bracketize ts) = ts.map strip := by
  have hquote1 : '\'' ∉ joinSep [',', ' '] ts := by
    intro hm
    rcases mem_joinSep [',', ' '] ts hm with hsep | ⟨t, ht, hc⟩
    · simp at hsep
    · exact (hchars t ht).2.1 hc
  have hquote2 : '"' ∉ joinSep [',', ' '] ts := by
    intro hm
    rcases mem_joinSep [',', ' '] ts hm with hsep | ⟨t, ht, hc⟩
    · simp at hsep
    · exact (hchars t ht).2.2 hc
  have hcomma : ∀ t ∈ ts, ',' ∉ t := fun t ht => (hchars t ht).1
  unfold get_words_core
  dsimp only
  rw [strip_bracketize]
  have hcond : ((bracketize ts).head? == some '[' &&
      (bracketize ts).getLast? == some ']') = true := by
    rw [bracketize_head, bracketize_getLast]
    rfl
  rw [if_pos hcond]
  have hdrop : (bracketize ts).drop 1 = joinSep [',', ' '] ts ++ [']'] := by
    rw [bracketize, List.cons_append]
    rfl
  rw [hdrop, List.dropLast_concat]
  rw [removeChar_eq_self hquote1, removeChar_eq_self hquote2]
  rw [pySplitComma_joinSep ts hne hcomma]
  cases ts with
  | nil => exact absurd rfl hne
  | cons t ts' =>
    simp only [List.headI, List.tail, List.map_cons, List.map_map]
    have hmap : ts'.map (strip ∘ fun t => ' ' :: t) = ts'.map strip := by
      apply List.map_congr_left
      intro u _
      exact strip_cons_space u rfl
    rw [hmap]
    apply filterWords_eq_self
    intro w hw
    have hw' : w = strip t ∨ ∃ u ∈ ts', w = strip u := by
      rcases List.mem_cons.mp hw with hh | hh
      · left; exact hh
      · right
        rcases List.mem_map.mp hh with ⟨u, hu, he⟩
        exact ⟨u, hu, he.symm⟩
    have hsrc : ∃ u ∈ t :: ts', w = strip u := by
      rcases hw' with hh | ⟨u, hu, he⟩
      · exact ⟨t, by simp, hh⟩
      · exact ⟨u, by simp [hu], he⟩
    rcases hsrc with ⟨u, hu, he⟩
    have hk := hkeep u hu
    constructor
    · rw [he]; exact strip_idem u
    · rw [he]; exact keepWord_of_strip u hk.1 hk.2.1 hk.2.2

/-! Lemmas about the Counter model. -/

section CounterLemmas

variable {α : Type} [DecidableEq α]

theorem sum_bump (w : α) (l : List (α × Nat)) :
    ((bump w l).map Prod.snd).sum = (l.map Prod.snd).sum + 1 := by
  induction l with
  | nil => rfl
  | cons p rest ih =>
    by_cases h : p.1 = w
    · simp [bump, h]
      omega
    · simp [bump, h, ih]
      omega

theorem foldl_bump_sum :
    ∀ (ws : List α) (acc : List (α × Nat)),
      ((ws.foldl (fun a w => bump w a) acc).map Prod.snd).sum =
        (acc.map Prod.snd).sum + ws.length := by
  intro ws
  induction ws with
  | nil => intro acc; rfl
  | cons w ws' ih =>
    intro acc
    rw [List.foldl_cons, ih (bump w acc), sum_bump]
    simp [Nat.add_assoc, Nat.add_comm 1 ws'.length]

theorem keyVal_bump_self (w : α) (l : List (α × Nat)) :
    keyVal w (bump w l) = keyVal w l + 1 := by
  induction l with
  | nil => simp [bump, keyVal]
  | cons p rest ih =>
    by_cases h : p.1 = w
    · simp [bump, h, keyVal]
    · simp [bump, h, keyVal, ih]

theorem keyVal_bump_ne {v w : α} (hvw : v ≠ w) (l : List (α × Nat)) :
    keyVal v (bump w l) = keyVal v l := by
  have hwv : ¬ (w = v) := fun he => hvw he.symm
  induction l with
  | nil => simp [bump, keyVal, hwv]
  | cons p rest ih =>
    by_cases h : p.1 = w
    · simp [bump, h, keyVal, hwv]
    · simp [bump, h, keyVal, ih]

theorem foldl_bump_keyVal :
    ∀ (ws : List α) (acc : List (α × Nat)) (v : α),
      keyVal v (ws.foldl (fun a w => bump w a) acc) = keyVal v acc + occurrences v ws := by
  intro ws
  induction ws with
  | nil => intro acc v; simp [occurrences]
  | cons w ws' ih =>
    intro acc v
    rw [List.foldl_cons, ih (bump w acc) v]
    by_cases h : v = w
    · rw [h, keyVal_bump_self]
      simp [occurrences]
      omega
    · have hwv : ¬ (w = v) := fun he => h he.symm
      rw [keyVal_bump_ne h]
      simp [occurrences, hwv]

theorem keys_bump (w : α) (l : List (α × Nat)) :
    (bump w l).map Prod.fst =
      if w ∈ l.map Prod.fst then l.map Prod.fst else l.map Prod.fst ++ [w] := by
  induction l with
  | nil => simp [bump]
  | cons p rest ih =>
    by_cases h : p.1 = w
    · simp [bump, h]
    · have hne : w ≠ p.1 := fun he => h he.symm
      simp only [bump, if_neg h, List.map_cons, List.mem_cons, hne, false_or]
      rw [ih]
      by_cases hm : w ∈ rest.map Prod.fst
      · simp [hm]
      · simp [hm]

theorem mem_keys_foldl_bump :
    ∀ (ws : List α) (acc : List (α × Nat)) (a : α),
      (a ∈ (ws.foldl (fun x w => bump w x) acc).map Prod.fst) ↔
        (a ∈ acc.map Prod.fst ∨ a ∈ ws) := by
  intro ws
  induction ws with
  | nil => intro acc a; simp
  | cons w ws' ih =>
    intro acc a
    rw [List.foldl_cons, ih (bump w acc) a, keys_bump]
    by_cases hm : w ∈ acc.map Prod.fst
    · rw [if_pos hm]
      constructor
      · rintro (h | h)
        · exact Or.inl h
        · exact Or.inr (by simp [h])
      · rintro (h | h)
        · exact Or.inl h
        · rcases List.mem_cons.mp h with he | he
          · exact Or.inl (he ▸ hm)
          · exact Or.inr he
    · rw [if_neg hm]
      constructor
      · rintro (h | h)
        · rcases List.mem_append.mp h with he | he
          · exact Or.inl he
          · simp at he
            exact Or.inr (by simp [he])
        · exact Or.inr (by simp [h])
      · rintro (h | h)
        · exact Or.inl (List.mem_append.mpr (Or.inl h))
        · rcases List.mem_cons.mp h with he | he
          · exact Or.inl (List.mem_append.mpr (Or.inr (by simp [he])))
          · exact Or.inr he

theorem mem_keys_counterItems (ws : List α) (a : α) :
    a ∈ (counterItems ws).map Prod.fst ↔ a ∈ ws := by
  rw [counterItems, mem_keys_foldl_bump ws [] a]
  simp

theorem firstIdx_append_left {a : α} {l : List α} (h : a ∈ l) (l' : List α) :
    firstIdx a (l ++ l') = firstIdx a l := by
  induction l with
  | nil => cases h
  | cons x xs ih =>
    by_cases hx : x = a
    · simp [firstIdx, hx]
    · rcases List.mem_cons.mp h with he | he
      · exact absurd he.symm hx
      · simp [firstIdx, hx, ih he]

theorem firstIdx_lt_length {a : α} {l : List α} (h : a ∈ l) : firstIdx a l < l.length := by
  induction l with
  | nil => cases h
  | cons x xs ih =>
    by_cases hx : x = a
    · simp [firstIdx, hx]
    · rcases List.mem_cons.mp h with he | he
      · exact absurd he.symm hx
      · simp only [firstIdx, hx, if_false, List.length_cons]
        exact Nat.succ_lt_succ (ih he)

theorem firstIdx_append_of_not_mem {a : α} {l : List α} (h : a ∉ l) (l' : List α) :
    firstIdx a (l ++ l') = l.length + firstIdx a l' := by
  induction l with
  | nil => simp
  | cons x xs ih =>
    have hx : x ≠ a := fun he => h (he ▸ List.mem_cons_self x xs)
    have hxs : a ∉ xs := fun hm => h (List.mem_cons_of_mem x hm)
    rw [List.cons_append]
    simp only [firstIdx, hx, if_false]
    rw [ih hxs, List.length_cons]
    omega

theorem counterItems_concat (l : List α) (w : α) :
    counterItems (l ++ [w]) = bump w (counterItems l) := by
  rw [counterItems, counterItems, List.foldl_append]
  rfl

theorem keys_counterItems_pairwise (ws : List α) :
    ((counterItems ws).map Prod.fst).Pairwise
      (fun a b => firstIdx a ws < firstIdx b ws) := by
  induction ws using List.reverseRecOn with
  | nil => simp [counterItems]
  | append_singleton l w ih =>
    rw [counterItems_concat, keys_bump]
    by_cases hm : w ∈ (counterItems l).map Prod.fst
    · rw [if_pos hm]
      apply List.Pairwise.imp_of_mem ?_ ih
      intro a b ha hb hab
      rw [firstIdx_append_left ((mem_keys_counterItems l a).mp ha) [w],
          firstIdx_append_left ((mem_keys_counterItems l b).mp hb) [w]]
      exact hab
    · rw [if_neg hm]
      rw [List.pairwise_append]
      refine ⟨?_, by simp, ?_⟩
      · apply List.Pairwise.imp_of_mem ?_ ih
        intro a b ha hb hab
        rw [firstIdx_append_left ((mem_keys_counterItems l a).mp ha) [w],
            firstIdx_append_left ((mem_keys_counterItems l b).mp hb) [w]]
        exact hab
      · intro a ha b hb
        have haw : a ∈ l := (mem_keys_counterItems l a).mp ha
        have hbw : b = w := by simpa using hb
        have hwl : w ∉ l := fun hc => hm ((mem_keys_counterItems l w).mpr hc)
        rw [hbw, firstIdx_append_left haw [w], firstIdx_append_of_not_mem hwl [w]]
        have h1 : firstIdx a l < l.length := firstIdx_lt_length haw
        have h2 : firstIdx w [w] = 0 := by simp [firstIdx]
        omega

theorem counterItems_pairwise_firstIdx (ws : List α) :
    (counterItems ws).Pairwise (fun p q => firstIdx p.1 ws < firstIdx q.1 ws) := by
  have h := keys_counterItems_pairwise ws
  rw [List.pairwise_map] at h
  exact h

theorem keys_counterItems_nodup (ws : List α) : ((counterItems ws).map Prod.fst).Nodup := by
  apply List.Pairwise.imp ?_ (keys_counterItems_pairwise ws)
  intro a b h
  intro he
  rw [he] at h
  exact absurd h (lt_irrefl _)

theorem keyVal_of_mem :
    ∀ {l : List (α × Nat)}, (l.map Prod.fst).Nodup → ∀ {p : α × Nat}, p ∈ l →
      keyVal p.1 l = p.2 := by
  intro l
  induction l with
  | nil => intro _ p hp; cases hp
  | cons q rest ih =>
    intro hnd p hp
    have hnd' : q.1 ∉ rest.map Prod.fst ∧ (rest.map Prod.fst).Nodup := by
      rw [List.map_cons] at hnd
      exact List.nodup_cons.mp hnd
    rcases List.mem_cons.mp hp with he | he
    · rw [he]
      simp [keyVal]
    · have hq : q.1 ≠ p.1 := by
        intro hqp
        exact hnd'.1 (hqp ▸ List.mem_map_of_mem Prod.fst he)
      simp only [keyVal, hq, if_false]
      exact ih hnd'.2 he

/-! Lemmas about the stable descending sort. -/

theorem mem_insertDesc {q p : α × Nat} :
    ∀ {l : List (α × Nat)}, q ∈ insertDesc p l ↔ q = p ∨ q ∈ l := by
  intro l
  induction l with
  | nil => simp [insertDesc]
  | cons r rest ih =>
    by_cases h : r.2 < p.2
    · simp [insertDesc, h]
    · simp only [insertDesc, if_neg h, List.mem_cons, ih]
      tauto

theorem sorted_insertDesc (p : α × Nat) :
    ∀ {l : List (α × Nat)}, l.Pairwise (fun a b => b.2 ≤ a.2) →
      (insertDesc p l).Pairwise (fun a b => b.2 ≤ a.2) := by
  intro l
  induction l with
  | nil => intro _; simp [insertDesc]
  | cons q rest ih =>
    intro hs
    have hq := List.pairwise_cons.mp hs
    by_cases h : q.2 < p.2
    · rw [insertDesc, if_pos h]
      apply List.pairwise_cons.mpr
      refine ⟨?_, hs⟩
      intro b hb
      rcases List.mem_cons.mp hb with he | he
      · rw [he]; exact Nat.le_of_lt h
      · exact Nat.le_trans (hq.1 b he) (Nat.le_of_lt h)
    · rw [insertDesc, if_neg h]
      apply List.pairwise_cons.mpr
      constructor
      · intro b hb
        rcases mem_insertDesc.mp hb with he | he
        · rw [he]; exact Nat.le_of_not_lt h
        · exact hq.1 b he
      · exact ih hq.2

theorem stable_insertDesc {R : α × Nat → α × Nat → Prop} (p : α × Nat) :
    ∀ {l : List (α × Nat)}, l.Pairwise (fun a b => b.2 ≤ a.2) →
      l.Pairwise (fun a b => a.2 = b.2 → R a b) →
      (∀ q ∈ l, q.2 = p.2 → R q p) →
      (insertDesc p l).Pairwise (fun a b => a.2 = b.2 → R a b) := by
  intro l
  induction l with
  | nil => intro _ _ _; simp [insertDesc]
  | cons q rest ih =>
    intro hs ht hc
    have hq := List.pairwise_cons.mp hs
    have htq := List.pairwise_cons.mp ht
    by_cases h : q.2 < p.2
    · rw [insertDesc, if_pos h]
      apply List.pairwise_cons.mpr
      refine ⟨?_, ht⟩
      intro b hb heq
      exfalso
      rcases List.mem_cons.mp hb with he | he
      · rw [he] at heq; omega
      · have : b.2 ≤ q.2 := hq.1 b he
        omega
    · rw [insertDesc, if_neg h]
      apply List.pairwise_cons.mpr
      constructor
      · intro b hb heq
        rcases mem_insertDesc.mp hb with he | he
        · rw [he]
          exact hc q (List.mem_cons_self q rest) (he ▸ heq)
        · exact htq.1 b he heq
      · exact ih hq.2 htq.2 (fun r hr => hc r (List.mem_cons_of_mem q hr))

theorem sortDesc_foldl_invariant {R : α × Nat → α × Nat → Prop} :
    ∀ (l acc : List (α × Nat)),
      acc.Pairwise (fun a b => b.2 ≤ a.2) →
      acc.Pairwise (fun a b => a.2 = b.2 → R a b) →
      (∀ q ∈ acc, ∀ p ∈ l, q.2 = p.2 → R q p) →
      l.Pairwise (fun a b => a.2 = b.2 → R a b) →
      (l.foldl (fun a p => insertDesc p a) acc).Pairwise (fun a b => b.2 ≤ a.2) ∧
      (l.foldl (fun a p => insertDesc p a) acc).Pairwise (fun a b => a.2 = b.2 → R a b) := by
  intro l
  induction l with
  | nil =>
    intro acc hs ht _ _
    exact ⟨hs, ht⟩
  | cons p l' ih =>
    intro acc hs ht hc hl
    have hlq := List.pairwise_cons.mp hl
    rw [List.foldl_cons]
    apply ih (insertDesc p acc)
    · exact sorted_insertDesc p hs
    · exact stable_insertDesc p hs ht
        (fun q hq hqp => hc q hq p (List.mem_cons_self p l') hqp)
    · intro q hq r hr hqr
      rcases mem_insertDesc.mp hq with he | he
      · rw [he]
        exact hlq.1 r hr (he ▸ hqr)
      · exact hc q he r (List.mem_cons_of_mem p hr) hqr
    · exact hlq.2

theorem sortDesc_sorted (l : List (α × Nat)) :
    (sortDesc l).Pairwise (fun a b => b.2 ≤ a.2) :=
  (sortDesc_foldl_invariant (R := fun _ _ => True) l []
    (by simp) (by simp) (by simp) (List.Pairwise.imp (fun _ => by trivial)
      (List.pairwise_iff_forall_sublist.mpr (fun _ => by simp [List.Sublist])))).1

theorem sortDesc_stable {R : α × Nat → α × Nat → Prop} (l : List (α × Nat))
    (hl : l.Pairwise (fun a b => a.2 = b.2 → R a b)) :
    (sortDesc l).Pairwise (fun a b => a.2 = b.2 → R a b) :=
  (sortDesc_foldl_invariant l [] (by simp) (by simp) (by simp) hl).2

end CounterLemmas

/-! Lemmas about Python min and max on nonempty lists. -/

theorem foldl_max_mem : ∀ (cs : List Nat) (c : Nat), cs.foldl Nat.max c ∈ c :: cs := by
  intro cs
  induction cs with
  | nil => intro c; simp
  | cons d ds ih =>
    intro c
    rw [List.foldl_cons]
    rcases List.mem_cons.mp (ih (Nat.max c d)) with he | he
    · rw [he]
      have h : Nat.max c d = c ∨ Nat.max c d = d := by
        rcases Nat.le_total c d with hle | hle
        · right; exact Nat.max_eq_right hle
        · left; exact Nat.max_eq_left hle
      rcases h with h | h
      · rw [h]; exact List.mem_cons_self c (d :: ds)
      · rw [h]; exact List.mem_cons_of_mem c (List.mem_cons_self d ds)
    · exact List.mem_cons_of_mem c (List.mem_cons_of_mem d he)

theorem le_foldl_max : ∀ (cs : List Nat) (c : Nat), ∀ x ∈ c :: cs, x ≤ cs.foldl Nat.max c := by
  intro cs
  induction cs with
  | nil =>
    intro c x hx
    rw [List.foldl_nil]
    rcases List.mem_cons.mp hx with he | he
    · exact Nat.le_of_eq he
    · cases he
  | cons d ds ih =>
    intro c x hx
    rw [List.foldl_cons]
    have hmax : Nat.max c d ≤ ds.foldl Nat.max (Nat.max c d) :=
      ih (Nat.max c d) _ (List.mem_cons_self _ _)
    rcases List.mem_cons.mp hx with he | he
    · rw [he]
      exact Nat.le_trans (Nat.le_max_left c d) hmax
    · rcases List.mem_cons.mp he with he2 | he2
      · rw [he2]
        exact Nat.le_trans (Nat.le_max_right c d) hmax
      · exact ih (Nat.max c d) x (List.mem_cons_of_mem _ he2)

theorem foldl_min_mem : ∀ (cs : List Nat) (c : Nat), cs.foldl Nat.min c ∈ c :: cs := by
  intro cs
  induction cs with
  | nil => intro c; simp
  | cons d ds ih =>
    intro c
    rw [List.foldl_cons]
    rcases List.mem_cons.mp (ih (Nat.min c d)) with he | he
    · rw [he]
      have h : Nat.min c d = c ∨ Nat.min c d = d := by
        rcases Nat.le_total c d with hle | hle
        · left; exact Nat.min_eq_left hle
        · right; exact Nat.min_eq_right hle
      rcases h with h | h
      · rw [h]; exact List.mem_cons_self c (d :: ds)
      · rw [h]; exact List.mem_cons_of_mem c (List.mem_cons_self d ds)
    · exact List.mem_cons_of_mem c (List.mem_cons_of_mem d he)

theorem foldl_min_le : ∀ (cs : List Nat) (c : Nat), ∀ x ∈ c :: cs, cs.foldl Nat.min c ≤ x := by
  intro cs
  induction cs with
  | nil =>
    intro c x hx
    rw [List.foldl_nil]
    rcases List.mem_cons.mp hx with he | he
    · exact Nat.le_of_eq he.symm
    · cases he
  | cons d ds ih =>
    intro c x hx
    rw [List.foldl_cons]
    have hmin : ds.foldl Nat.min (Nat.min c d) ≤ Nat.min c d :=
      ih (Nat.min c d) _ (List.mem_cons_self _ _)
    rcases List.mem_cons.mp hx with he | he
    · rw [he]
      exact Nat.le_trans hmin (Nat.min_le_left c d)
    · rcases List.mem_cons.mp he with he2 | he2
      · rw [he2]
        exact Nat.le_trans hmin (Nat.min_le_right c d)
      · exact ih (Nat.min c d) x (List.mem_cons_of_mem _ he2)

theorem pyMaxNat_spec {l : List Nat} {m : Nat} (h : pyMaxNat l = some m) :
    m ∈ l ∧ ∀ x ∈ l, x ≤ m := by
  cases l with
  | nil => cases h
  | cons c cs =>
    rw [pyMaxNat] at h
    injection h with h
    exact ⟨h ▸ foldl_max_mem cs c, fun x hx => h ▸ le_foldl_max cs c x hx⟩

theorem pyMinNat_spec {l : List Nat} {m : Nat} (h : pyMinNat l = some m) :
    m ∈ l ∧ ∀ x ∈ l, m ≤ x := by
  cases l with
  | nil => cases h
  | cons c cs =>
    rw [pyMinNat] at h
    injection h with h
    exact ⟨h ▸ foldl_min_mem cs c, fun x hx => h ▸ foldl_min_le cs c x hx⟩

theorem pyMaxNat_isSome (l : List Nat) (h : l ≠ []) : ∃ m, pyMaxNat l = some m := by
  cases l with
  | nil => exact absurd rfl h
  | cons c cs => exact ⟨cs.foldl Nat.max c, rfl⟩

theorem pyMinNat_isSome (l : List Nat) (h : l ≠ []) : ∃ m, pyMinNat l = some m := by
  cases l with
  | nil => exact absurd rfl h
  | cons c cs => exact ⟨cs.foldl Nat.min c, rfl⟩

/-! Helper lemmas for the extractor theorems. -/

theorem keepWord_of_mem_core {w s : List Char} (h : w ∈ get_words_core s) :
    keepWord w = true := by
  unfold get_words_core at h
  dsimp only at h
  rcases mem_filterWords h with ⟨v, _, _, hk⟩
  exact hk

theorem keepWord_unpack {w : List Char} (h : keepWord w = true) :
    w ≠ [] ∧ pyIsspaceStr w = false ∧ w ∉ noiseTokens := by
  rw [keepWord] at h
  have h1 := (Bool.and_eq_true _ _).mp h
  have h2 := (Bool.and_eq_true _ _).mp h1.1
  refine ⟨?_, ?_, ?_⟩
  · have hlen := of_decide_eq_true h2.1
    intro he
    rw [he] at hlen
    simp at hlen
  · cases hb : pyIsspaceStr w
    · rfl
    · rw [hb] at h2
      simp at h2
  · intro hm
    have hc : noiseTokens.contains w = true := List.elem_iff.mpr hm
    rw [hc] at h1
    simp at h1

theorem get_words_ok_cases {v : PyVal} {l : List (List Char)}
    (h : get_words_from_segmented v = .ok l) :
    l = [] ∨ ∃ s, v = .pyStr s ∧ l = get_words_core s := by
  cases v with
  | pyStr s =>
    right
    refine ⟨s, rfl, ?_⟩
    have he : get_words_from_segmented (.pyStr s) = .ok (get_words_core s) := rfl
    rw [he] at h
    injection h with h
    exact h.symm
  | pyNone =>
    left
    have he : get_words_from_segmented .pyNone = .ok [] := rfl
    rw [he] at h
    injection h with h
    exact h.symm
  | nanVal =>
    left
    have he : get_words_from_segmented .nanVal = .ok [] := rfl
    rw [he] at h
    injection h with h
    exact h.symm
  | intVal n =>
    left
    have he : get_words_from_segmented (.intVal n) = .ok [] := rfl
    rw [he] at h
    injection h with h
    exact h.symm
  | pyList flags =>
    left
    cases flags with
    | nil => exact Except.noConfusion h
    | cons b rest =>
      cases rest with
      | nil =>
        cases b
        · have he : get_words_from_segmented (.pyList [false]) = .ok [] := rfl
          rw [he] at h
          injection h with h
          exact h.symm
        · have he : get_words_from_segmented (.pyList [true]) = .ok [] := rfl
          rw [he] at h
          injection h with h
          exact h.symm
      | cons c rest' => exact Except.noConfusion h

theorem mem_of_mem_splitOnPred (p : Char → Bool) :
    ∀ {l w : List Char}, w ∈ splitOnPred p l → ∀ {c : Char}, c ∈ w → c ∈ l := by
  intro l
  induction l with
  | nil =>
    intro w hw c hc
    simp [splitOnPred] at hw
    rw [hw] at hc
    cases hc
  | cons x xs ih =>
    intro w hw c hc
    by_cases hx : p x = true
    · rw [splitOnPred_cons_sep p xs hx] at hw
      rcases List.mem_cons.mp hw with he | he
      · rw [he] at hc; cases hc
      · exact List.mem_cons_of_mem x (ih he hc)
    · have hx' : p x = false := by
        cases hb : p x
        · rfl
        · exact absurd hb hx
      rw [splitOnPred_cons_not p xs hx'] at hw
      rcases List.mem_cons.mp hw with he | he
      · rw [he] at hc
        rcases List.mem_cons.mp hc with hc2 | hc2
        · rw [hc2]; exact List.mem_cons_self x xs
        · have hhead : (splitOnPred p xs).headI ∈ splitOnPred p xs := by
            cases hs : splitOnPred p xs with
            | nil => exact absurd hs (splitOnPred_ne_nil p xs)
            | cons a rest => simp
          exact List.mem_cons_of_mem x (ih hhead hc2)
      · have hmem : w ∈ splitOnPred p xs := by
          cases hs : splitOnPred p xs with
          | nil => exact absurd hs (splitOnPred_ne_nil p xs)
          | cons a rest =>
            rw [hs] at he
            exact List.mem_cons_of_mem a he
        exact List.mem_cons_of_mem x (ih hmem hc)

/-! Theorems settling the claims. -/

/-- C2 (amended): for every well-formed bracketed token string
`"[a, b, c]"` whose tokens contain no commas, brackets, or quote characters,
and whose tokens are still nonempty after whitespace stripping and are not
the literal noise markers `\n`/`\t`, `get_words_from_segmented` returns
exactly the stripped tokens in input order.  (The extractor drops a token
that strips to the empty string or to a literal noise marker, which is the
only departure from the claim as stated.) -/
theorem bracketed_extraction_returns_tokens (ts : List (List Char)) (hne : ts ≠ [])
    (hchars : ∀ t ∈ ts, ',' ∉ t ∧ '[' ∉ t ∧ ']' ∉ t ∧ '\'' ∉ t ∧ '"' ∉ t)
    (hkeep : ∀ t ∈ ts, strip t ≠ [] ∧ strip t ≠ ['\\', 'n'] ∧ strip t ≠ ['\\', 't']) :
    get_words_from_segmented (.pyStr (bracketize ts)) = .ok (ts.map strip) := by
  have he : get_words_from_segmented (.pyStr (bracketize ts)) =
      .ok (get_words_core (bracketize ts)) := rfl
  rw [he, get_words_core_bracketed ts hne
    (fun t ht => ⟨(hchars t ht).1, (hchars t ht).2.2.2.1, (hchars t ht).2.2.2.2⟩) hkeep]

/-- Witness for C2: the bracketed string `"[a, b]"` extracts to
`["a", "b"]`. -/
theorem bracketed_extraction_returns_tokens_witness :
    get_words_from_segmented (.pyStr (bracketize [['a'], ['b']])) = .ok [['a'], ['b']] :=
  bracketed_extraction_returns_tokens [['a'], ['b']] (by decide) (by decide) (by decide)

/-- C2 counterexample: the bracketed string `"[\n, ok]"` has tokens
`["\n", "ok"]` (no commas, brackets or quotes), yet extraction returns only
`["ok"]` — the literal noise marker `\n` is dropped, not returned. -/
theorem bracketed_extraction_counterexample :
    get_words_from_segmented (.pyStr ['[', '\\', 'n', ',', ' ', 'o', 'k', ']']) =
      .ok [['o', 'k']] ∧
    get_words_from_segmented (.pyStr ['[', '\\', 'n', ',', ' ', 'o', 'k', ']']) ≠
      .ok [['\\', 'n'], ['o', 'k']] := by
  exact ⟨rfl, by decide⟩

/-- C3 (amended): for every scalar input value — null, NaN, a number, or a
string — `get_words_from_segmented` returns without raising, and when the
scalar is null/NaN or not a string it returns the empty sequence.  (A
non-scalar list input instead raises `ValueError` out of
`pd.isna(...) or ...`, which sits outside the `try` block.) -/
theorem extractor_total_on_scalars (v : PyVal) (h : isListVal v = false) :
    (∃ l, get_words_from_segmented v = .ok l) ∧
    (isStringVal v = false → get_words_from_segmented v = .ok []) := by
  cases v with
  | pyNone => exact ⟨⟨[], rfl⟩, fun _ => rfl⟩
  | nanVal => exact ⟨⟨[], rfl⟩, fun _ => rfl⟩
  | intVal n => exact ⟨⟨[], rfl⟩, fun _ => rfl⟩
  | pyStr s =>
    refine ⟨⟨get_words_core s, rfl⟩, fun hf => ?_⟩
    simp [isStringVal] at hf
  | pyList flags => simp [isListVal] at h

/-- Witness for C3: the NaN input yields the empty sequence without
raising. -/
theorem extractor_total_on_scalars_witness :
    (∃ l, get_words_from_segmented PyVal.nanVal = .ok l) ∧
    (isStringVal PyVal.nanVal = false → get_words_from_segmented PyVal.nanVal = .ok []) :=
  extractor_total_on_scalars PyVal.nanVal (by decide)

/-- C3 counterexample: a two-element list input is "not a string", yet
`get_words_from_segmented` raises `ValueError` (from the truthiness of the
elementwise `pd.isna` result) instead of returning the empty sequence. -/
theorem extractor_list_input_raises :
    get_words_from_segmented (PyVal.pyList [false, false]) = .error PyErr.valueError ∧
    get_words_from_segmented (PyVal.pyList [false, false]) ≠ .ok [] := by
  exact ⟨rfl, by decide⟩

/-- C4: `most_common` returns pairs ordered descending by count, ties broken
by the order of first occurrence of the token in the input iteration
(expressed through `firstIdx`), deterministically (it is a function of its
input); aggregating `[["x","y"]]` with N = 2 returns
`[("x",1),("y",1)]`. -/
theorem most_common_desc_first_seen (ws : List (List Char)) (n : Nat) :
    (mostCommon ws n).Pairwise (fun p q => q.2 ≤ p.2) ∧
    (mostCommon ws n).Pairwise (fun p q => p.2 = q.2 → firstIdx p.1 ws < firstIdx q.1 ws) ∧
    mostCommon [['x'], ['y']] 2 = [(['x'], 1), (['y'], 1)] := by
  refine ⟨?_, ?_, by decide⟩
  · exact List.Pairwise.sublist (List.take_sublist n _) (sortDesc_sorted _)
  · refine List.Pairwise.sublist (List.take_sublist n _) ?_
    apply sortDesc_stable
    refine List.Pairwise.imp ?_ (counterItems_pairwise_firstIdx ws)
    intro a b hlt _
    exact hlt

/-- C5: aggregating the concatenated token sequences into a `Counter` maps
each distinct token to its exact occurrence count (and only tokens that
occur get an entry), and the counts sum to the total number of tokens;
aggregating `[["a","a","b"]]` yields `{a:2, b:1}` with top-1 `("a",2)`. -/
theorem aggregation_counts_exact (wss : List (List (List Char))) :
    (((counterItems wss.flatten).map Prod.snd).sum = wss.flatten.length) ∧
    (∀ w, keyVal w (counterItems wss.flatten) = occurrences w wss.flatten) ∧
    (∀ p ∈ counterItems wss.flatten, p.2 = occurrences p.1 wss.flatten) ∧
    (∀ w, w ∈ (counterItems wss.flatten).map Prod.fst ↔ w ∈ wss.flatten) ∧
    (counterItems [['a'], ['a'], ['b']] = [(['a'], 2), (['b'], 1)] ∧
     mostCommon [['a'], ['a'], ['b']] 1 = [(['a'], 2)]) := by
  refine ⟨?_, ?_, ?_, ?_, by decide, by decide⟩
  · have h := foldl_bump_sum wss.flatten []
    simpa [counterItems] using h
  · intro w
    have h := foldl_bump_keyVal wss.flatten [] w
    simpa [counterItems, keyVal] using h
  · intro p hp
    have h1 : keyVal p.1 (counterItems wss.flatten) = p.2 :=
      keyVal_of_mem (keys_counterItems_nodup wss.flatten) hp
    have h2 := foldl_bump_keyVal wss.flatten [] p.1
    rw [← h1]
    simpa [counterItems, keyVal] using h2
  · exact mem_keys_counterItems wss.flatten

/-- C8: every token returned by `get_words_from_segmented` is a non-empty,
non-whitespace-only string distinct from all the literal noise markers
`' '`, `''`, `'\n'`, `'\t'`. -/
theorem extractor_tokens_wellformed (v : PyVal) (l : List (List Char))
    (h : get_words_from_segmented v = .ok l) :
    ∀ w ∈ l, w ≠ [] ∧ pyIsspaceStr w = false ∧ w ∉ noiseTokens := by
  intro w hw
  rcases get_words_ok_cases h with he | ⟨s, _, he⟩
  · rw [he] at hw; cases hw
  · rw [he] at hw
    exact keepWord_unpack (keepWord_of_mem_core hw)

/-- Witness for C8: the token extracted from `"[a]"` satisfies all three
invariants. -/
theorem extractor_tokens_wellformed_witness :
    (['a'] : List Char) ≠ [] ∧ pyIsspaceStr ['a'] = false ∧ ['a'] ∉ noiseTokens :=
  extractor_tokens_wellformed (.pyStr ['[', 'a', ']']) [['a']] rfl ['a'] (by decide)

/-- C9 (amended): in the bracketed branch the extractor removes every quote
character, including quote characters interior to tokens (an apostrophe
inside a word is deleted rather than preserved); no returned token contains
a quote character. -/
theorem bracketed_tokens_have_no_quotes (s : List Char)
    (h : ((strip s).head? == some '[' && (strip s).getLast? == some ']') = true) :
    ∀ w ∈ get_words_core s, '\'' ∉ w ∧ '"' ∉ w := by
  intro w hw
  unfold get_words_core at hw
  dsimp only at hw
  rw [if_pos h] at hw
  rcases mem_filterWords hw with ⟨v, hv, hwv, _⟩
  rcases List.mem_map.mp hv with ⟨u, hu, huv⟩
  constructor
  · intro hq
    have h1 : '\'' ∈ v := mem_strip (hwv ▸ hq)
    have h2 : '\'' ∈ u := mem_strip (huv ▸ h1)
    have h3 := mem_of_mem_splitOnPred (fun c => c == ',') hu h2
    have h4 := mem_removeChar h3
    exact not_mem_removeChar '\'' _ h4
  · intro hq
    have h1 : '"' ∈ v := mem_strip (hwv ▸ hq)
    have h2 : '"' ∈ u := mem_strip (huv ▸ h1)
    have h3 := mem_of_mem_splitOnPred (fun c => c == ',') hu h2
    exact not_mem_removeChar '"' _ h3

/-- Witness for C9: extracting `"[don't]"` yields a token containing no
quote character. -/
theorem bracketed_tokens_have_no_quotes_witness :
    '\'' ∉ (['d', 'o', 'n', 't'] : List Char) ∧ '"' ∉ (['d', 'o', 'n', 't'] : List Char) :=
  bracketed_tokens_have_no_quotes ['[', 'd', 'o', 'n', '\'', 't', ']'] (by decide)
    ['d', 'o', 'n', 't'] (by decide)

/-- C9 counterexample: the bracketed input `"[don't]"` has a token with an
interior apostrophe; the extractor returns `["dont"]`, deleting the
apostrophe rather than preserving it. -/
theorem quote_preservation_counterexample :
    get_words_from_segmented (.pyStr ['[', 'd', 'o', 'n', '\'', 't', ']']) =
      .ok [['d', 'o', 'n', 't']] ∧
    get_words_from_segmented (.pyStr ['[', 'd', 'o', 'n', '\'', 't', ']']) ≠
      .ok [['d', 'o', 'n', '\'', 't']] := by
  exact ⟨rfl, by decide⟩

/-- C6: on a non-empty frequency table in which all counts are equal, the
size computation of the manual grid renderer (which runs whenever the
renderer reaches it, before the drawing loop) assigns the single fixed size
50 to every word — the degenerate branch performs no division; when the
counts differ, the size formula divides only by the range
`max_count - min_count`, which is then strictly positive; and every size a
successful render displays comes from exactly this computation. -/
theorem manual_renderer_degenerate_range (tbl : List ((List Char) × Nat)) (mw : Nat)
    (h1 : tbl ≠ []) (h2 : 0 < mw) :
    ((∀ p ∈ tbl, ∀ q ∈ tbl, p.2 = q.2) →
      manualSizes tbl mw =
        some (List.replicate ((tbl.map Prod.fst).take mw).length 50)) ∧
    (∀ mx mn, pyMaxNat ((tbl.map Prod.snd).take mw) = some mx →
      pyMinNat ((tbl.map Prod.snd).take mw) = some mn → mx ≠ mn →
      (0 : ℚ) < (mx : ℚ) - (mn : ℚ) ∧
      manualSizes tbl mw = some (((tbl.map Prod.snd).take mw).map
        (fun c : Nat => (20 : ℚ) + 80 * (((c : ℚ) - (mn : ℚ)) / ((mx : ℚ) - (mn : ℚ)))))) ∧
    (∀ drawOk fig, create_wordcloud_image_manual tbl 1200 600 mw drawOk = some fig →
      manualSizes tbl mw = some fig.sizes) := by
  have hcne : (tbl.map Prod.snd).take mw ≠ [] := by
    intro hc
    rcases List.take_eq_nil_iff.mp hc with hc | hc
    · omega
    · exact h1 (List.map_eq_nil_iff.mp hc)
  refine ⟨?_, ?_, ?_⟩
  · intro heq
    obtain ⟨mx, hmx⟩ := pyMaxNat_isSome _ hcne
    obtain ⟨mn, hmn⟩ := pyMinNat_isSome _ hcne
    have hmxt : mx ∈ (tbl.map Prod.snd).take mw := (pyMaxNat_spec hmx).1
    have hmnt : mn ∈ (tbl.map Prod.snd).take mw := (pyMinNat_spec hmn).1
    have hof : ∀ x ∈ (tbl.map Prod.snd).take mw, ∃ p ∈ tbl, p.2 = x := by
      intro x hx
      have hx2 : x ∈ tbl.map Prod.snd := List.mem_of_mem_take hx
      rcases List.mem_map.mp hx2 with ⟨p, hp, he⟩
      exact ⟨p, hp, he⟩
    obtain ⟨p, hp, hpe⟩ := hof mx hmxt
    obtain ⟨q, hq, hqe⟩ := hof mn hmnt
    have hmm : mx = mn := by
      rw [← hpe, ← hqe]
      exact heq p hp q hq
    unfold manualSizes
    dsimp only
    rw [hmx, hmn]
    dsimp only
    rw [if_pos hmm]
  · intro mx mn hmx hmn hneq
    have hle : mn ≤ mx := (pyMinNat_spec hmn).2 mx (pyMaxNat_spec hmx).1
    have hlt : mn < mx := Nat.lt_of_le_of_ne hle (fun he => hneq he.symm)
    have hpos : (0 : ℚ) < (mx : ℚ) - (mn : ℚ) := by
      have : (mn : ℚ) < (mx : ℚ) := by exact_mod_cast hlt
      linarith
    refine ⟨hpos, ?_⟩
    unfold manualSizes
    dsimp only
    rw [hmx, hmn]
    dsimp only
    rw [if_neg hneq]
  · intro drawOk fig hfig
    unfold create_wordcloud_image_manual at hfig
    dsimp only at hfig
    cases hms : manualSizes tbl mw with
    | none =>
      rw [hms] at hfig
      simp at hfig
    | some sizes =>
      rw [hms] at hfig
      cases drawOk
      · simp at hfig
      · have hfig2 : some (⟨(tbl.map Prod.fst).take mw, sizes,
            gridPositions 1200 600 ((tbl.map Prod.fst).take mw).length⟩ : ManualFig) =
            some fig := hfig
        injection hfig2 with hfig2
        rw [← hfig2]

/-- Witness for C6: on a two-word table with equal counts 3 the size
computation yields the fixed constant 50 for both words. -/
theorem manual_renderer_degenerate_range_witness :
    manualSizes [(['a'], 3), (['b'], 3)] 100 = some (List.replicate 2 50) :=
  (manual_renderer_degenerate_range [(['a'], 3), (['b'], 3)] 100 (by decide)
    (by decide)).1 (by decide)

/-- C10 (amended): for every non-empty frequency table and positive
max_words bound, when the drawing stage completes without raising the
manual grid renderer places the first max_words tokens of the table in the
table's own (insertion) order — not the max_words highest-count tokens —
one size per placed word, each size within the configured bounds 20 and
100, at the evenly spaced grid positions; when a drawing-stage call raises
(as it does in the app's render flow, where the fixed-key font-uploader
widget already exists before the drawing loop re-creates it), the renderer
returns None and places nothing. -/
theorem manual_grid_layout (tbl : List ((List Char) × Nat)) (mw : Nat)
    (h1 : tbl ≠ []) (h2 : 0 < mw) :
    (∃ fig, create_wordcloud_image_manual tbl 1200 600 mw true = some fig ∧
      fig.words = (tbl.map Prod.fst).take mw ∧
      fig.sizes.length = fig.words.length ∧
      (∀ s ∈ fig.sizes, 20 ≤ s ∧ s ≤ 100) ∧
      fig.positions = gridPositions 1200 600 fig.words.length) ∧
    create_wordcloud_image_manual tbl 1200 600 mw false = none := by
  have hcne : (tbl.map Prod.snd).take mw ≠ [] := by
    intro hc
    rcases List.take_eq_nil_iff.mp hc with hc | hc
    · omega
    · exact h1 (List.map_eq_nil_iff.mp hc)
  obtain ⟨mx, hmx⟩ := pyMaxNat_isSome _ hcne
  obtain ⟨mn, hmn⟩ := pyMinNat_isSome _ hcne
  have hlen : ((tbl.map Prod.snd).take mw).length = ((tbl.map Prod.fst).take mw).length := by
    simp
  have hnone : create_wordcloud_image_manual tbl 1200 600 mw false = none := by
    unfold create_wordcloud_image_manual
    dsimp only
    cases hms : manualSizes tbl mw with
    | none => simp
    | some sizes => simp
  refine ⟨?_, hnone⟩
  by_cases hmm : mx = mn
  · have hms : manualSizes tbl mw =
        some (List.replicate ((tbl.map Prod.fst).take mw).length 50) := by
      unfold manualSizes
      dsimp only
      rw [hmx, hmn]
      dsimp only
      rw [if_pos hmm]
    have heq2 : create_wordcloud_image_manual tbl 1200 600 mw true =
        some ⟨(tbl.map Prod.fst).take mw,
              List.replicate ((tbl.map Prod.fst).take mw).length 50,
              gridPositions 1200 600 ((tbl.map Prod.fst).take mw).length⟩ := by
      unfold create_wordcloud_image_manual
      dsimp only
      rw [hms]
      rfl
    refine ⟨_, heq2, rfl, ?_, ?_, rfl⟩
    · simp
    · intro s hs
      have := List.eq_of_mem_replicate hs
      rw [this]
      norm_num
  · have hms : manualSizes tbl mw =
        some (((tbl.map Prod.snd).take mw).map
          (fun c : Nat => (20 : ℚ) + 80 * (((c : ℚ) - (mn : ℚ)) / ((mx : ℚ) - (mn : ℚ))))) := by
      unfold manualSizes
      dsimp only
      rw [hmx, hmn]
      dsimp only
      rw [if_neg hmm]
    have heq2 : create_wordcloud_image_manual tbl 1200 600 mw true =
        some ⟨(tbl.map Prod.fst).take mw,
              ((tbl.map Prod.snd).take mw).map
                (fun c : Nat => (20 : ℚ) + 80 * (((c : ℚ) - (mn : ℚ)) / ((mx : ℚ) - (mn : ℚ)))),
              gridPositions 1200 600 ((tbl.map Prod.fst).take mw).length⟩ := by
      unfold create_wordcloud_image_manual
      dsimp only
      rw [hms]
      rfl
    refine ⟨_, heq2, rfl, ?_, ?_, rfl⟩
    · simp [hlen]
    · intro s hs
      rcases List.mem_map.mp hs with ⟨c, hc, he⟩
      have hcmx : c ≤ mx := (pyMaxNat_spec hmx).2 c hc
      have hcmn : mn ≤ c := (pyMinNat_spec hmn).2 c hc
      have hle : mn ≤ mx := (pyMinNat_spec hmn).2 mx (pyMaxNat_spec hmx).1
      have hlt : mn < mx := Nat.lt_of_le_of_ne hle (fun he2 => hmm he2.symm)
      have hpos : (0 : ℚ) < (mx : ℚ) - (mn : ℚ) := by
        have : (mn : ℚ) < (mx : ℚ) := by exact_mod_cast hlt
        linarith
      have ht0 : (0 : ℚ) ≤ ((c : ℚ) - (mn : ℚ)) / ((mx : ℚ) - (mn : ℚ)) := by
        apply div_nonneg
        · have : (mn : ℚ) ≤ (c : ℚ) := by exact_mod_cast hcmn
          linarith
        · linarith
      have ht1 : ((c : ℚ) - (mn : ℚ)) / ((mx : ℚ) - (mn : ℚ)) ≤ 1 := by
        rw [div_le_one hpos]
        have : (c : ℚ) ≤ (mx : ℚ) := by exact_mod_cast hcmx
        linarith
      rw [← he]
      constructor
      · linarith
      · linarith

/-- Witness for C10: a two-word table, with the drawing stage succeeding,
renders both words with in-bound sizes at the grid positions. -/
theorem manual_grid_layout_witness :
    ∃ fig, create_wordcloud_image_manual [(['a'], 1), (['b'], 2)] 1200 600 100 true = some fig ∧
      fig.words = ([(['a'], 1), (['b'], 2)].map Prod.fst).take 100 ∧
      fig.sizes.length = fig.words.length ∧
      (∀ s ∈ fig.sizes, 20 ≤ s ∧ s ≤ 100) ∧
      fig.positions = gridPositions 1200 600 fig.words.length :=
  (manual_grid_layout [(['a'], 1), (['b'], 2)] 100 (by decide) (by decide)).1

/-- C10 counterexample: when a drawing-stage call raises — as in the app's
render flow, where the fixed-key font-uploader widget already exists — the
renderer returns None and places no token at all; and even with the drawing
stage succeeding, with an 11-entry table whose highest-count token was
inserted last and max_words 10, the renderer places the first ten tokens of
the table, while the token `k` — which belongs to the ten highest-count
tokens (it appears in the top-10 of the descending sort) — is not placed. -/
theorem manual_grid_selection_counterexample :
    create_wordcloud_image_manual
        [(['a'], 1), (['b'], 1), (['c'], 1), (['d'], 1), (['e'], 1), (['f'], 1),
         (['g'], 1), (['h'], 1), (['i'], 1), (['j'], 1), (['k'], 2)] 1200 600 10 false =
      none ∧
    (create_wordcloud_image_manual
        [(['a'], 1), (['b'], 1), (['c'], 1), (['d'], 1), (['e'], 1), (['f'], 1),
         (['g'], 1), (['h'], 1), (['i'], 1), (['j'], 1), (['k'], 2)] 1200 600 10 true).map
        (fun f => f.words) =
      some [['a'], ['b'], ['c'], ['d'], ['e'], ['f'], ['g'], ['h'], ['i'], ['j']] ∧
    (['k'], 2) ∈
      (sortDesc [(['a'], 1), (['b'], 1), (['c'], 1), (['d'], 1), (['e'], 1), (['f'], 1),
         (['g'], 1), (['h'], 1), (['i'], 1), (['j'], 1), (['k'], 2)]).take 10 ∧
    ['k'] ∉ [['a'], ['b'], ['c'], ['d'], ['e'], ['f'], ['g'], ['h'], ['i'], ['j']] := by
  refine ⟨rfl, rfl, by decide, by decide⟩

/-- C1 (amended): in automatic word-cloud mode the render block attempts the
strategies in the fixed order [create_wordcloud_ultimate,
create_wordcloud_image_manual, display_word_frequency], invoking a later
strategy exactly when every earlier one returned None and halting at the
first success, and on exhaustion the bar fallback is shown without raising;
in user-selected manual-layout mode the same discipline holds but the chain
starts at the manual strategy (create_wordcloud_ultimate is skipped by the
mode choice, not because it failed). -/
theorem fallback_chain_characterization (allWords : List (List Char))
    (u m : Option Nat) (h : allWords ≠ []) :
    ((wordcloudRenderBlock allWords .autoCloud u m).invoked =
      match u, m with
      | some _, _ => [Strategy.ultimate]
      | none, some _ => [Strategy.ultimate, Strategy.manual]
      | none, none => [Strategy.ultimate, Strategy.manual, Strategy.bar]) ∧
    ((wordcloudRenderBlock allWords .manualLayout u m).invoked =
      match m with
      | some _ => [Strategy.manual]
      | none => [Strategy.manual, Strategy.bar]) ∧
    chainDiscipline allWords .autoCloud u m ∧
    (wordcloudRenderBlock allWords .autoCloud none none).barShown = true ∧
    (wordcloudRenderBlock allWords .manualLayout u none).barShown = true := by
  have hne : allWords.isEmpty = false := by
    cases allWords
    · exact absurd rfl h
    · rfl
  cases u <;> cases m <;>
    simp [wordcloudRenderBlock, chainDiscipline, hne]

/-- Witness for C1: in automatic mode with a successful first strategy only
the first strategy is invoked. -/
theorem fallback_chain_characterization_witness :
    (wordcloudRenderBlock [['a']] .autoCloud (some 1) none).invoked = [Strategy.ultimate] :=
  (fallback_chain_characterization [['a']] (some 1) none (by decide)).1

/-- C1 counterexample: with the user-selected manual-layout mode the manual
strategy is invoked although the earlier strategy in the fixed chain never
returned failure (it was never invoked at all, and would have succeeded), so
the claimed failure-ordered discipline over the fixed three-strategy chain
does not hold for every render action. -/
theorem fallback_chain_counterexample :
    ¬ chainDiscipline [['a']] GenMode.manualLayout (some 0) (some 0) := by decide

/-- C7: for every render action with a non-empty extracted token list, the
top-20 frequency table is produced and displayed irrespective of the
generation mode and of both renderers' outcomes. -/
theorem top_table_always_shown (allWords : List (List Char)) (mode : GenMode)
    (u m : Option Nat) (h : allWords ≠ []) :
    (wordcloudRenderBlock allWords mode u m).topTable = some (mostCommon allWords 20) := by
  have hne : allWords.isEmpty = false := by
    cases allWords
    · exact absurd rfl h
    · rfl
  cases mode <;> cases u <;> cases m <;> simp [wordcloudRenderBlock, hne]

/-- Witness for C7: the table is shown even when both renderers fail. -/
theorem top_table_always_shown_witness :
    (wordcloudRenderBlock [['a']] .autoCloud none none).topTable =
      some (mostCommon [['a']] 20) :=
  top_table_always_shown [['a']] .autoCloud none none (by decide)

end BiliApp
